import Mathlib

/-!
Verification development for the slide-challenge solving subsystem of the
seat-reservation automation repository (`src/core/slider_captcha.py`).

The numeric code is embedded over exact rationals (`ℚ`): the Python source
computes with binary floating point, and every constant appearing in the
algorithm (`50.0`, `-50.0`, `0.1` time step, the `0.5` thresholds) is modelled
by the exact rational it denotes.  The quantity
`mid_distance = 0.5 * a1 * sqrt(max(d / a1, 0))²` collapses to `d / 2` in exact
arithmetic for `d ≥ 0`, and is embedded as such.
-/

namespace SeatSlider

/-- Python `round` with no digit argument: round half to even (banker's
rounding), as used by `int(round(step))` in `generate_track`. -/
def pyRound (q : ℚ) : ℤ :=
  let f := ⌊q⌋
  let r := q - f
  if r < 1/2 then f
  else if 1/2 < r then f + 1
  else if 2 ∣ f then f else f + 1

/-- Python `int()` applied to a float: truncation toward zero.  Used by
`adjusted_distance = int(distance * scale_ratio)` in `handle_slider_captcha`. -/
def pyInt (q : ℚ) : ℤ := if 0 ≤ q then ⌊q⌋ else -⌊-q⌋

/-- State of the simulation loop inside `generate_track`: running position
`current`, running velocity `v`, and the collected raw (float) track. -/
structure SimState where
  current : ℚ
  v : ℚ
  raw : List ℚ
  deriving Repr, DecidableEq

/-- One iteration of the `while current < target_distance` body of
`generate_track` (lines 156–168 of `slider_captcha.py`):
acceleration `a1 = 50` while `current < mid_distance`, else `a2 = -50`;
`t = 0.1`; velocity clamped at `0`; per-step displacement `v_old*t + a*t²/2`,
clamped to the exact remainder on overshoot; displacements `≥ 0.5` collected. -/
def simStep (d : ℚ) (s : SimState) : SimState :=
  let a : ℚ := if s.current < d / 2 then 50 else -50
  let v' : ℚ := max 0 (s.v + a * (1/10))
  let move0 : ℚ := s.v * (1/10) + (1/2) * a * (1/10) * (1/10)
  let move : ℚ := if d < s.current + move0 then d - s.current else move0
  { current := s.current + move
    v := v'
    raw := if (1/2 : ℚ) ≤ move then s.raw ++ [move] else s.raw }

/-- Fuel-indexed unfolding of the `while current < target_distance` loop. -/
def simLoop (d : ℚ) : ℕ → SimState → SimState
  | 0, s => s
  | n + 1, s => if s.current < d then simLoop d n (simStep d s) else s

/-- Python `track[-1] = f(track[-1])`: rewrite the last element of a list. -/
def setLast (l : List ℤ) (f : ℤ → ℤ) : List ℤ :=
  match l with
  | [] => []
  | [x] => [f x]
  | x :: y :: xs => x :: setLast (y :: xs) f

/-- Model of `SliderCaptcha.generate_track` (lines 138–177).  The argument is an
integer (the caller passes `final_distance : int`), so `int(round(distance))`
is the identity.  The loop is run with fuel `2·d + 4`; the termination theorem
below shows the loop in fact exits (guard false) within that fuel. -/
def generate_track (distance : ℤ) : List ℤ :=
  let target : ℤ := distance
  if target ≤ 0 then []
  else
    let s := simLoop (target : ℚ) (2 * target.toNat + 4) ⟨0, 0, []⟩
    let raw : List ℚ := if s.raw = [] then [(target : ℚ)] else s.raw
    let track : List ℤ := raw.map (fun step => max 1 (pyRound step))
    let delta : ℤ := target - track.sum
    setLast track (fun last => max 1 (last + delta))

/-- Distance-correction pipeline of `handle_slider_captcha` (lines 344–348):
`adjusted_distance = int(distance * scale_ratio)` followed by
`final_distance = adjusted_distance - settings.SLIDER_SAFE_MARGIN`. -/
def correct (raw : ℤ) (ratio : ℚ) (margin : ℤ) : ℤ :=
  pyInt ((raw : ℚ) * ratio) - margin

/-- Modelled from the spec (§4.3), for comparison with `correct`: the spec
states `corrected = round(raw_offset * scale_ratio)` (round to nearest),
then `target = corrected - safety_margin`. -/
def correctSpecRound (raw : ℤ) (ratio : ℚ) (margin : ℤ) : ℤ :=
  pyRound ((raw : ℚ) * ratio) - margin

/-- Constant `settings.SLIDER_DISTANCE_OFFSET` (settings.py line 79). -/
def SLIDER_DISTANCE_OFFSET : ℤ := 0

/-- Constant `settings.SLIDER_SAFE_MARGIN` (settings.py line 80). -/
def SLIDER_SAFE_MARGIN : ℤ := 0

/-- Outcome of the JavaScript geometry query inside `calculate_scale_ratio`
(lines 190–210): the script either throws (`raises`), returns a falsy value
(`nullResult`), reports `success: false` because the background element is
missing (`noElement`) or its natural width is zero (`zeroWidth`), or returns
the two widths on success. -/
inductive ScaleQuery
  | raises
  | nullResult
  | noElement
  | zeroWidth
  | ok (originalWidth displayedWidth : ℤ)
  deriving Repr, DecidableEq

/-- Model of `SliderCaptcha.calculate_scale_ratio` (lines 179–230): every failure mode
(script exception, falsy result, missing element, zero natural width) falls
back to ratio `1.0`; the success branch returns `displayedWidth /
originalWidth`.  The function is total — the Python `try`/`except` makes it
exception-free, which the plain (non-`Except`) return type reflects. -/
def calculate_scale_ratio : ScaleQuery → ℚ
  | .raises => 1
  | .nullResult => 1
  | .noElement => 1
  | .zeroWidth => 1
  | .ok ow dw => (dw : ℚ) / (ow : ℚ)

/-- Model of `SliderCaptcha.recognize_distance` (lines 111–136): the external matcher
(`ddddocr.slide_match`) result, plus the configured offset.  The body has no
`try`/`except`, so a raising matcher propagates — modelled by `Except`. -/
def recognize_distance (matcher : Except Unit ℤ) : Except Unit ℤ :=
  match matcher with
  | .error e => .error e
  | .ok target => .ok (target + SLIDER_DISTANCE_OFFSET)

/-- Calls made on the ActionChains / automation surface by `drag_slider`. -/
inductive SurfaceEv
  | clickAndHold
  | moveBy (x : ℤ)
  | perform
  | release
  deriving Repr, DecidableEq, BEq

/-- Environment of one `drag_slider` call: whether the `WebDriverWait` locates
the slider button, and which `perform()` calls (0-indexed) raise — a raising
`perform` models both `MoveTargetOutOfBoundsException` and any other surface
exception, which the source handles identically. -/
structure DragEnv where
  handleFound : Bool
  performFails : ℕ → Bool

/-- The move loop of `drag_slider` (lines 255–258): queue each offset, and
flush with `perform()` after every 5th move and after the last one.  `n` is
`len(track)`, `i` the loop index, `pc` the index of the next `perform` call.
Returns the surface calls made, the next perform index, and whether the loop
completed without an exception. -/
def runMoves (env : DragEnv) (n : ℕ) : List ℤ → ℕ → ℕ → List SurfaceEv × ℕ × Bool
  | [], _, pc => ([], pc, true)
  | m :: rest, i, pc =>
    if (i + 1) % 5 = 0 ∨ i = n - 1 then
      if env.performFails pc then ([.moveBy m, .perform], pc + 1, false)
      else
        let r := runMoves env n rest (i + 1) (pc + 1)
        (.moveBy m :: .perform :: r.1, r.2)
    else
      let r := runMoves env n rest (i + 1) pc
      (.moveBy m :: r.1, r.2)

/-- Model of `SliderCaptcha.drag_slider` (lines 232–272).  If the `WebDriverWait` at
line 243 times out, the exception propagates before any gesture is queued
(`Except.error`, empty call list).  Otherwise the `try` block presses, replays
the batched moves, and releases; any exception is caught and the `finally`
block queues one more `release()` (its own failure is swallowed by the inner
`try`/`except pass`).  Note the `finally` release also runs on the success
path. -/
def dragRun (env : DragEnv) (track : List ℤ) : Except Unit Bool × List SurfaceEv :=
  if env.handleFound = false then (.error (), [])
  else
    let pre : List SurfaceEv := [.clickAndHold, .perform]
    if env.performFails 0 then (.ok false, pre ++ [.release])
    else
      let r := runMoves env track.length track 0 1
      if r.2.2 = false then (.ok false, pre ++ r.1 ++ [.release])
      else if env.performFails r.2.1 then
        (.ok false, pre ++ r.1 ++ [.release, .perform, .release])
      else
        (.ok true, pre ++ r.1 ++ [.release, .perform, .release])

/-- Environment of one attempt of the controller loop: the image pair served
by the Image Source (`none` models a falsy background or slider buffer), the
matcher outcome, the scale-query outcome, the drag environment, and the
verifier's answer (popup absent after the settle delay). -/
structure AttemptEnv where
  images : Option (ℤ × ℤ)
  matcher : Except Unit ℤ
  scale : ScaleQuery
  drag : DragEnv
  verified : Bool

/-- Environment of a whole `handle_slider_captcha` call. -/
structure CtlEnv where
  popupAppears : Bool
  attempts : ℕ → AttemptEnv

/-- Observable calls made by the controller, tagged with the (1-based)
attempt number. -/
inductive CtlEv
  | fetchImages (attempt : ℕ) (imgs : Option (ℤ × ℤ))
  | recognize (attempt : ℕ) (bg slider : ℤ)
  | scaleQuery (attempt : ℕ)
  | dragCall (attempt : ℕ) (track : List ℤ)
  | verifyCall (attempt : ℕ)
  deriving Repr, DecidableEq, BEq

/-- Attempt number an event belongs to. -/
def CtlEv.attempt : CtlEv → ℕ
  | .fetchImages k _ => k
  | .recognize k _ _ => k
  | .scaleQuery k => k
  | .dragCall k _ => k
  | .verifyCall k => k

/-- The `for attempt in range(1, max_attempts + 1)` body of
`handle_slider_captcha` (lines 319–377), with `n` attempts remaining and `k`
the current attempt number.  Mirrors the source's control flow: falsy images
`continue`; a raising matcher propagates (no enclosing `try`); the scale ratio
is computed totally; the corrected distance feeds `generate_track`; an empty
track `continue`s; a propagating `drag_slider` exception (missing handle)
escapes, a `False` result `continue`s; a true verification returns `True`,
false `continue`s; exhaustion returns `False`. -/
def attemptLoop (env : CtlEnv) : ℕ → ℕ → Except Unit Bool × List CtlEv
  | 0, _ => (.ok false, [])
  | n + 1, k =>
    let ae := env.attempts k
    let ev0 := CtlEv.fetchImages k ae.images
    match ae.images with
    | none =>
      let r := attemptLoop env n (k + 1)
      (r.1, ev0 :: r.2)
    | some (bg, sl) =>
      match recognize_distance ae.matcher with
      | .error e => (.error e, [ev0, .recognize k bg sl])
      | .ok distance =>
        let scale_ratio := calculate_scale_ratio ae.scale
        let final_distance := correct distance scale_ratio SLIDER_SAFE_MARGIN
        let track := generate_track final_distance
        if track = [] then
          let r := attemptLoop env n (k + 1)
          (r.1, ev0 :: .recognize k bg sl :: .scaleQuery k :: r.2)
        else
          match dragRun ae.drag track with
          | (.error e, _) =>
            (.error e, [ev0, .recognize k bg sl, .scaleQuery k, .dragCall k track])
          | (.ok false, _) =>
            let r := attemptLoop env n (k + 1)
            (r.1, ev0 :: .recognize k bg sl :: .scaleQuery k :: .dragCall k track :: r.2)
          | (.ok true, _) =>
            if ae.verified then
              (.ok true, [ev0, .recognize k bg sl, .scaleQuery k, .dragCall k track, .verifyCall k])
            else
              let r := attemptLoop env n (k + 1)
              (r.1, ev0 :: .recognize k bg sl :: .scaleQuery k :: .dragCall k track :: .verifyCall k :: r.2)

/-- Model of `SliderCaptcha.handle_slider_captcha` (lines 297–379): the sole entry
point.  If the popup never appears within the bounded wait (lines 308–317) the
`except` branch returns `False` before the loop — no attempt is made. -/
def handle_slider_captcha (env : CtlEnv) (max_attempts : ℕ) : Except Unit Bool × List CtlEv :=
  if env.popupAppears then attemptLoop env max_attempts 1
  else (.ok false, [])

/-! Section: Helper lemmas: rounding -/

lemma pyRound_int_add (z : ℤ) (r : ℚ) (h0 : 0 ≤ r) (h1 : r < 1) :
    pyRound ((z : ℚ) + r) =
      if r < 1/2 then z else if 1/2 < r then z + 1 else if 2 ∣ z then z else z + 1 := by
  have hfr : ⌊r⌋ = 0 := Int.floor_eq_iff.mpr ⟨by exact_mod_cast h0, by norm_num; linarith⟩
  have hf : ⌊(z : ℚ) + r⌋ = z := by rw [add_comm, Int.floor_add_int, hfr, zero_add]
  simp only [pyRound, hf]
  have h2 : (z : ℚ) + r - (z : ℤ) = r := by ring
  rw [h2]

lemma pyInt_nonneg_bounds (q : ℚ) (h : 0 ≤ q) : (pyInt q : ℚ) ≤ q ∧ q < pyInt q + 1 := by
  simp only [pyInt, if_pos h]
  exact ⟨Int.floor_le q, Int.lt_floor_add_one q⟩

lemma pyInt_neg_bounds (q : ℚ) (h : q < 0) : q ≤ (pyInt q : ℚ) ∧ (pyInt q : ℚ) < q + 1 := by
  simp only [pyInt, if_neg (not_le.2 h)]
  have hle := Int.floor_le (-q)
  have hlt := Int.lt_floor_add_one (-q)
  constructor
  · push_cast
    linarith
  · push_cast
    linarith

/-! Section: Helper lemmas: `setLast` and `generate_track` basics -/

lemma setLast_concat (l : List ℤ) (x : ℤ) (f : ℤ → ℤ) :
    setLast (l ++ [x]) f = l ++ [f x] := by
  induction l with
  | nil => rfl
  | cons a l ih =>
    cases l with
    | nil => rfl
    | cons b l => exact congrArg (a :: ·) ih

lemma setLast_ne_nil (l : List ℤ) (f : ℤ → ℤ) (h : l ≠ []) : setLast l f ≠ [] := by
  rcases l.eq_nil_or_concat' with rfl | ⟨L, b, rfl⟩
  · exact absurd rfl h
  · rw [setLast_concat]
    simp

lemma setLast_all_ge (l : List ℤ) (f : ℤ → ℤ) (h1 : ∀ x ∈ l, (1:ℤ) ≤ x)
    (h2 : ∀ y, (1:ℤ) ≤ f y) : ∀ x ∈ setLast l f, (1:ℤ) ≤ x := by
  rcases l.eq_nil_or_concat' with rfl | ⟨L, b, rfl⟩
  · intro x hx
    simp [setLast] at hx
  · rw [setLast_concat]
    intro x hx
    rcases List.mem_append.1 hx with hx | hx
    · exact h1 x (List.mem_append.2 (Or.inl hx))
    · rw [List.mem_singleton.1 hx]
      exact h2 b

lemma generate_track_nonpos (d : ℤ) (h : d ≤ 0) : generate_track d = [] := by
  simp [generate_track, h]

lemma generate_track_ne_nil (d : ℤ) (h : 0 < d) : generate_track d ≠ [] := by
  have h' : ¬ d ≤ 0 := by omega
  simp only [generate_track, if_neg h']
  apply setLast_ne_nil
  split
  · simp
  · next hraw =>
    simpa using hraw

lemma generate_track_all_pos (d : ℤ) : ∀ x ∈ generate_track d, (1:ℤ) ≤ x := by
  by_cases h : d ≤ 0
  · simp [generate_track_nonpos d h]
  · simp only [generate_track, if_neg h]
    apply setLast_all_ge
    · intro x hx
      obtain ⟨y, -, rfl⟩ := List.mem_map.1 hx
      exact le_max_left _ _
    · intro y
      exact le_max_left _ _

/-! Section: C4: the distance-correction pipeline -/

/-- C4 counterexample: the claim states the pipeline rounds to nearest
(`corrected = round(raw_offset * scale_ratio)`), but line 344 of the source
truncates (`int(distance * scale_ratio)`): at `raw = 3`, `ratio = 1/2`,
`margin = 0` the code yields `1` while round-to-nearest yields `2`. -/
theorem correct_round_counterexample :
    correct 3 (1/2) 0 = 1 ∧ correctSpecRound 3 (1/2) 0 = 2 := by
  constructor
  · show pyInt ((3 : ℚ) * (1/2)) - 0 = 1
    have h32 : ((3:ℤ) : ℚ) * (1/2) = (1 : ℤ) + (1/2 : ℚ) := by norm_num
    simp only [pyInt, if_pos (by norm_num : (0:ℚ) ≤ (3 : ℚ) * (1/2))]
    rw [show ((3:ℚ) * (1/2)) = ((1 : ℤ) : ℚ) + (1/2 : ℚ) by norm_num, add_comm,
      Int.floor_add_int]
    norm_num [Int.floor_eq_iff]
  · show pyRound ((3 : ℚ) * (1/2)) - 0 = 2
    rw [show ((3:ℚ) * (1/2)) = ((1 : ℤ) : ℚ) + (1/2 : ℚ) by norm_num,
      pyRound_int_add 1 (1/2) (by norm_num) (by norm_num)]
    norm_num

/-- C4 (amended): the pipeline computes
`target = trunc(raw_offset * scale_ratio) - safety_margin` where `trunc` is
truncation toward zero (Python `int()`), not rounding to nearest; the claim's
two named examples nevertheless hold: `correct 100 1 0 = 100` and
`correct 100 (1/2) 5 = 45`.  The truncation is characterised order-
theoretically on both signs of the product. -/
theorem correct_pipeline_trunc (raw : ℤ) (ratio : ℚ) (margin : ℤ) :
    correct 100 1 0 = 100 ∧ correct 100 (1/2) 5 = 45 ∧
    (0 ≤ (raw : ℚ) * ratio →
      ((correct raw ratio margin + margin : ℤ) : ℚ) ≤ (raw : ℚ) * ratio ∧
      (raw : ℚ) * ratio < (correct raw ratio margin + margin : ℤ) + 1) ∧
    ((raw : ℚ) * ratio < 0 →
      (raw : ℚ) * ratio ≤ ((correct raw ratio margin + margin : ℤ) : ℚ) ∧
      ((correct raw ratio margin + margin : ℤ) : ℚ) < (raw : ℚ) * ratio + 1) := by
  have hc : (correct raw ratio margin + margin : ℤ) = pyInt ((raw : ℚ) * ratio) := by
    simp [correct]
  refine ⟨?_, ?_, ?_, ?_⟩
  · show pyInt ((100 : ℚ) * 1) - 0 = 100
    simp only [pyInt, if_pos (by norm_num : (0:ℚ) ≤ (100 : ℚ) * 1)]
    rw [show ((100:ℚ) * 1) = (((100 : ℤ)) : ℚ) by norm_num, Int.floor_intCast]
    norm_num
  · show pyInt ((100 : ℚ) * (1/2)) - 5 = 45
    simp only [pyInt, if_pos (by norm_num : (0:ℚ) ≤ (100 : ℚ) * (1/2))]
    rw [show ((100:ℚ) * (1/2)) = (((50 : ℤ)) : ℚ) by norm_num, Int.floor_intCast]
    norm_num
  · intro h
    rw [hc]
    have := pyInt_nonneg_bounds _ h
    exact ⟨this.1, by linarith [this.2]⟩
  · intro h
    rw [hc]
    have := pyInt_neg_bounds _ h
    exact ⟨this.1, this.2⟩

/-- Witness for C4's amended theorem at `raw = 3`, `ratio = 1/2`,
`margin = 0`. -/
theorem correct_pipeline_trunc_witness :
    (0 ≤ (3 : ℚ) * (1/2)) ∧
    (((correct 3 (1/2) 0 + 0 : ℤ) : ℚ) ≤ (3 : ℚ) * (1/2) ∧
      (3 : ℚ) * (1/2) < (correct 3 (1/2) 0 + 0 : ℤ) + 1) :=
  ⟨by norm_num, (correct_pipeline_trunc 3 (1/2) 0).2.2.1 (by norm_num)⟩


/-! Section: C6: trajectory positivity -/

/-- C6: for every strictly positive integer target distance `d`,
`generate_track d` is non-empty and every element is at least 1.  The final
list is built from `max(1, round(step))` entries whose last element is again
clamped by `max(1, ...)`, and the empty-`raw_track` fallback inserts the full
target, so the list is never empty for `d > 0`. -/
theorem trajectory_positivity (d : ℤ) (hd : 0 < d) :
    generate_track d ≠ [] ∧ ∀ x ∈ generate_track d, (1:ℤ) ≤ x :=
  ⟨generate_track_ne_nil d hd, generate_track_all_pos d⟩

/-- Witness for C6 at `d = 140` (the spec's end-to-end scenario distance). -/
theorem trajectory_positivity_witness :
    (0 : ℤ) < 140 ∧ generate_track 140 ≠ [] :=
  ⟨by decide, (trajectory_positivity 140 (by decide)).1⟩

/-! Section: C9: scale-corrector totality -/

/-- C9: `calculate_scale_ratio` is total (its Lean type is a plain function
into `ℚ`, reflecting that the Python `try`/`except` at lines 189–230 absorbs
every exception) and returns exactly `1.0` in each failure mode: the geometry
script raising, a falsy script result, a missing background element, and a
zero natural width. -/
theorem scale_ratio_fallback :
    calculate_scale_ratio .raises = 1 ∧ calculate_scale_ratio .nullResult = 1 ∧
    calculate_scale_ratio .noElement = 1 ∧ calculate_scale_ratio .zeroWidth = 1 :=
  ⟨rfl, rfl, rfl, rfl⟩

/-! Section: Drag-executor lemmas and C3 -/

/-- Recogniser for `release` calls among the surface events. -/
def isRelease : SurfaceEv → Bool
  | .release => true
  | _ => false

lemma runMoves_no_release (env : DragEnv) (n : ℕ) (l : List ℤ) (i pc : ℕ) :
    ((runMoves env n l i pc).1.countP isRelease) = 0 := by
  induction l generalizing i pc with
  | nil => rfl
  | cons m rest ih =>
    simp only [runMoves]
    split
    · split
      · simp [isRelease]
      · simp [isRelease, ih]
    · simp [isRelease, ih]

lemma runMoves_ok (env : DragEnv) (hp : ∀ j, env.performFails j = false) (n : ℕ)
    (l : List ℤ) (i pc : ℕ) : (runMoves env n l i pc).2.2 = true := by
  induction l generalizing i pc with
  | nil => rfl
  | cons m rest ih =>
    simp only [runMoves]
    split
    · simp [hp, ih]
    · simp [ih]

lemma dragRun_ok_of_handle (env : DragEnv) (track : List ℤ)
    (hh : env.handleFound = true) : ∃ b, (dragRun env track).1 = .ok b := by
  have hh' : ¬ env.handleFound = false := by simp [hh]
  simp only [dragRun, if_neg hh']
  split
  · exact ⟨false, rfl⟩
  · split
    · exact ⟨false, rfl⟩
    · split
      · exact ⟨false, rfl⟩
      · exact ⟨true, rfl⟩

lemma dragRun_ok_true (env : DragEnv) (track : List ℤ) (hh : env.handleFound = true)
    (hp : ∀ j, env.performFails j = false) : (dragRun env track).1 = .ok true := by
  simp [dragRun, hh, hp, runMoves_ok env hp]

lemma dragRun_release_pos (env : DragEnv) (track : List ℤ)
    (hh : env.handleFound = true) : 1 ≤ (dragRun env track).2.countP isRelease := by
  have hh' : ¬ env.handleFound = false := by simp [hh]
  simp only [dragRun, if_neg hh']
  split
  · simp [isRelease]
  · split
    · simp [isRelease, runMoves_no_release]
    · split <;> simp [isRelease, runMoves_no_release]

lemma dragRun_release_one (env : DragEnv) (track : List ℤ)
    (hh : env.handleFound = true)
    (hfail : env.performFails 0 = true ∨
      (runMoves env track.length track 0 1).2.2 = false) :
    (dragRun env track).2.countP isRelease = 1 := by
  have hh' : ¬ env.handleFound = false := by simp [hh]
  simp only [dragRun, if_neg hh']
  cases h0 : env.performFails 0 with
  | true => simp [isRelease]
  | false =>
    have hrm : (runMoves env track.length track 0 1).2.2 = false := by
      rcases hfail with h | h
      · rw [h0] at h
        exact absurd h (by simp)
      · exact h
    simp [hrm, isRelease, runMoves_no_release]

/-- Drag environment in which the handle lookup itself fails. -/
def noHandleEnv : DragEnv := ⟨false, fun _ => false⟩

/-- C3 counterexample: the claim's second clause says a release is issued on
*every* exit path of `drag_slider`, but when the `WebDriverWait` at line 243
cannot locate the slider button, the timeout exception propagates before the
ActionChains object performs any call: `drag_slider` exits exceptionally with
zero `release` calls issued. -/
theorem drag_release_counterexample :
    dragRun noHandleEnv [5] = (.error (), []) ∧
    (dragRun noHandleEnv [5]).2.countP isRelease = 0 :=
  ⟨rfl, rfl⟩

/-- C3 (amended): once the slider handle has been located
(`handleFound = true`), a release call is issued on every exit path of
`drag_slider` — and if the press `perform` or a mid-sequence move `perform`
raises (out-of-bounds or any surface exception), the release is issued
exactly once, by the `finally` block.  If the handle lookup itself fails,
`drag_slider` exits without issuing any surface call (see the
counterexample). -/
theorem drag_release_discipline (track : List ℤ) (env : DragEnv)
    (hh : env.handleFound = true) :
    1 ≤ (dragRun env track).2.countP isRelease ∧
    (env.performFails 0 = true ∨
        (runMoves env track.length track 0 1).2.2 = false →
      (dragRun env track).2.countP isRelease = 1) :=
  ⟨dragRun_release_pos env track hh, dragRun_release_one env track hh⟩

/-- Drag environment whose second `perform` (the first mid-sequence batch
flush) raises. -/
def failSecondPerformEnv : DragEnv := ⟨true, fun j => j == 1⟩

/-- Witness for C3's amended theorem: a six-step trajectory whose first
mid-sequence `perform` raises still issues exactly one release. -/
theorem drag_release_discipline_witness :
    1 ≤ (dragRun failSecondPerformEnv [1, 2, 3, 4, 5, 6]).2.countP isRelease ∧
    (dragRun failSecondPerformEnv [1, 2, 3, 4, 5, 6]).2.countP isRelease = 1 :=
  ⟨(drag_release_discipline [1, 2, 3, 4, 5, 6] failSecondPerformEnv rfl).1,
   (drag_release_discipline [1, 2, 3, 4, 5, 6] failSecondPerformEnv rfl).2
     (Or.inr (by decide))⟩

/-! Section: Controller lemmas -/

/-- Recogniser for Image Source calls among the controller events. -/
def CtlEv.isFetch : CtlEv → Bool
  | .fetchImages _ _ => true
  | _ => false

/-- Recogniser for Verifier calls among the controller events. -/
def CtlEv.isVerify : CtlEv → Bool
  | .verifyCall _ => true
  | _ => false

lemma attemptLoop_isOk (env : CtlEnv)
    (hm : ∀ k, ∃ t, (env.attempts k).matcher = .ok t)
    (hh : ∀ k, (env.attempts k).drag.handleFound = true) :
    ∀ n k, ∃ b, (attemptLoop env n k).1 = .ok b := by
  intro n
  induction n with
  | zero => exact fun k => ⟨false, rfl⟩
  | succ n ih =>
    intro k
    simp only [attemptLoop]
    rcases himg : (env.attempts k).images with - | ⟨bg, sl⟩
    · simp only [himg]
      simpa using ih (k + 1)
    · obtain ⟨t, hmk⟩ := hm k
      simp only [himg, hmk, recognize_distance]
      split
      · simpa using ih (k + 1)
      · rcases hdr : dragRun (env.attempts k).drag
            (generate_track (correct (t + SLIDER_DISTANCE_OFFSET)
              (calculate_scale_ratio (env.attempts k).scale) SLIDER_SAFE_MARGIN))
          with ⟨res, evs⟩
        obtain ⟨b, hb⟩ := dragRun_ok_of_handle (env.attempts k).drag _ (hh k)
        rw [hdr] at hb
        simp only at hb
        rcases res with e | bb
        · exact absurd hb (by simp)
        · cases bb
          · simpa using ih (k + 1)
          · simp only []
            split
            · exact ⟨true, rfl⟩
            · simpa using ih (k + 1)

lemma attemptLoop_head_fetch (env : CtlEnv) (n k : ℕ) (hn : 0 < n) :
    ∃ rest, (attemptLoop env n k).2 =
      CtlEv.fetchImages k (env.attempts k).images :: rest := by
  obtain ⟨n, rfl⟩ : ∃ m, n = m + 1 := ⟨n - 1, by omega⟩
  simp only [attemptLoop]
  rcases himg : (env.attempts k).images with - | ⟨bg, sl⟩
  · simp only [himg]
    exact ⟨_, rfl⟩
  · rcases hmt : (env.attempts k).matcher with e | t
    · simp only [himg, hmt, recognize_distance]
      exact ⟨_, rfl⟩
    · simp only [himg, hmt, recognize_distance]
      split
      · exact ⟨_, rfl⟩
      · rcases hdr : dragRun (env.attempts k).drag
            (generate_track (correct (t + SLIDER_DISTANCE_OFFSET)
              (calculate_scale_ratio (env.attempts k).scale) SLIDER_SAFE_MARGIN))
          with ⟨res, evs⟩
        rcases res with e | bb
        · exact ⟨_, rfl⟩
        · cases bb
          · exact ⟨_, rfl⟩
          · simp only []
            split
            · exact ⟨_, rfl⟩
            · exact ⟨_, rfl⟩

lemma attemptLoop_attempt_ge (env : CtlEnv) :
    ∀ n k, ∀ ev ∈ (attemptLoop env n k).2, k ≤ ev.attempt := by
  intro n
  induction n with
  | zero => simp [attemptLoop]
  | succ n ih =>
    intro k
    simp only [attemptLoop]
    rcases himg : (env.attempts k).images with - | ⟨bg, sl⟩
    · simp only [himg]
      intro ev hev
      rcases List.mem_cons.1 hev with rfl | hev
      · exact le_refl _
      · exact Nat.le_of_succ_le (ih (k + 1) ev hev)
    · rcases hmt : (env.attempts k).matcher with e | t
      · simp only [himg, hmt, recognize_distance]
        intro ev hev
        rcases List.mem_cons.1 hev with rfl | hev
        · exact le_refl _
        · simp only [List.mem_singleton] at hev
          subst hev
          exact le_refl _
      · simp only [himg, hmt, recognize_distance]
        split
        · intro ev hev
          rcases List.mem_cons.1 hev with rfl | hev
          · exact le_refl _
          rcases List.mem_cons.1 hev with rfl | hev
          · exact le_refl _
          rcases List.mem_cons.1 hev with rfl | hev
          · exact le_refl _
          · exact Nat.le_of_succ_le (ih (k + 1) ev hev)
        · rcases hdr : dragRun (env.attempts k).drag
              (generate_track (correct (t + SLIDER_DISTANCE_OFFSET)
                (calculate_scale_ratio (env.attempts k).scale) SLIDER_SAFE_MARGIN))
            with ⟨res, evs⟩
          rcases res with e | bb
          · intro ev hev
            simp only [List.mem_cons, List.not_mem_nil, or_false] at hev
            rcases hev with rfl | rfl | rfl | rfl
            all_goals exact le_refl _
          · cases bb
            · intro ev hev
              rcases List.mem_cons.1 hev with rfl | hev
              · exact le_refl _
              rcases List.mem_cons.1 hev with rfl | hev
              · exact le_refl _
              rcases List.mem_cons.1 hev with rfl | hev
              · exact le_refl _
              rcases List.mem_cons.1 hev with rfl | hev
              · exact le_refl _
              · exact Nat.le_of_succ_le (ih (k + 1) ev hev)
            · simp only []
              split
              · intro ev hev
                simp only [List.mem_cons, List.not_mem_nil, or_false] at hev
                rcases hev with rfl | rfl | rfl | rfl | rfl
                all_goals exact le_refl _
              · intro ev hev
                rcases List.mem_cons.1 hev with rfl | hev
                · exact le_refl _
                rcases List.mem_cons.1 hev with rfl | hev
                · exact le_refl _
                rcases List.mem_cons.1 hev with rfl | hev
                · exact le_refl _
                rcases List.mem_cons.1 hev with rfl | hev
                · exact le_refl _
                rcases List.mem_cons.1 hev with rfl | hev
                · exact le_refl _
                · exact Nat.le_of_succ_le (ih (k + 1) ev hev)


lemma attemptLoop_all_fail (env : CtlEnv) (bg sl t : ℕ → ℤ)
    (himg : ∀ k, (env.attempts k).images = some (bg k, sl k))
    (hm : ∀ k, (env.attempts k).matcher = .ok (t k))
    (hh : ∀ k, (env.attempts k).drag.handleFound = true)
    (hp : ∀ k j, (env.attempts k).drag.performFails j = false)
    (htr : ∀ k, 0 < correct (t k + SLIDER_DISTANCE_OFFSET)
        (calculate_scale_ratio (env.attempts k).scale) SLIDER_SAFE_MARGIN)
    (hv : ∀ k, (env.attempts k).verified = false) :
    ∀ n k, (attemptLoop env n k).1 = .ok false ∧
      (attemptLoop env n k).2.countP CtlEv.isFetch = n ∧
      (attemptLoop env n k).2.countP CtlEv.isVerify = n ∧
      (∀ a b s, CtlEv.recognize a b s ∈ (attemptLoop env n k).2 →
        b = bg a ∧ s = sl a) ∧
      (∀ a, k ≤ a → a < k + n →
        CtlEv.recognize a (bg a) (sl a) ∈ (attemptLoop env n k).2) := by
  intro n
  induction n with
  | zero =>
    intro k
    refine ⟨rfl, rfl, rfl, ?_, ?_⟩
    · intro a b s h
      simp [attemptLoop] at h
    · intro a h1 h2
      omega
  | succ n ih =>
    intro k
    obtain ⟨ih1, ih2, ih3, ih4, ih5⟩ := ih (k + 1)
    have hne : generate_track (correct (t k + SLIDER_DISTANCE_OFFSET)
        (calculate_scale_ratio (env.attempts k).scale) SLIDER_SAFE_MARGIN) ≠ [] :=
      generate_track_ne_nil _ (htr k)
    simp only [attemptLoop, himg k, hm k, recognize_distance, if_neg hne]
    rcases hdrp : dragRun (env.attempts k).drag (generate_track
        (correct (t k + SLIDER_DISTANCE_OFFSET)
          (calculate_scale_ratio (env.attempts k).scale) SLIDER_SAFE_MARGIN))
      with ⟨res, evs⟩
    have hok : res = .ok true := by
      have h := dragRun_ok_true (env.attempts k).drag
        (generate_track (correct (t k + SLIDER_DISTANCE_OFFSET)
          (calculate_scale_ratio (env.attempts k).scale) SLIDER_SAFE_MARGIN))
        (hh k) (hp k)
      rw [hdrp] at h
      exact h
    subst hok
    simp only []
    rw [if_neg (by simp [hv k])]
    refine ⟨by simpa using ih1, ?_, ?_, ?_, ?_⟩
    · simp only [List.countP_cons, CtlEv.isFetch]
      simp [ih2]
    · simp only [List.countP_cons, CtlEv.isVerify]
      simp [ih3]
    · intro a b s hmem
      simp only [List.mem_cons] at hmem
      rcases hmem with h | h | h | h | h | h
      · exact absurd h (by simp)
      · simp only [CtlEv.recognize.injEq] at h
        obtain ⟨rfl, rfl, rfl⟩ := h
        exact ⟨rfl, rfl⟩
      · exact absurd h (by simp)
      · exact absurd h (by simp)
      · exact absurd h (by simp)
      · exact ih4 a b s h
    · intro a h1 h2
      by_cases hak : a = k
      · subst hak
        simp
      · have hmem := ih5 a (by omega) (by omega)
        simp [hmem]

/-! Section: C5: retry bound, fresh images, exhaustion -/

/-- C5: a controller whose verification always fails, with every earlier
stage succeeding, calls the Image Source exactly `N` times and the Verifier
exactly `N` times, never feeds the Recogniser an image pair other than the
one fetched in that same attempt (freshness: each `recognize` event carries
exactly attempt `a`'s images `(bg a, sl a)`), and returns overall failure
`False` without raising. -/
theorem retry_bound (env : CtlEnv) (N : ℕ) (bg sl t : ℕ → ℤ)
    (hpop : env.popupAppears = true)
    (himg : ∀ k, (env.attempts k).images = some (bg k, sl k))
    (hm : ∀ k, (env.attempts k).matcher = .ok (t k))
    (hh : ∀ k, (env.attempts k).drag.handleFound = true)
    (hp : ∀ k j, (env.attempts k).drag.performFails j = false)
    (htr : ∀ k, 0 < correct (t k + SLIDER_DISTANCE_OFFSET)
        (calculate_scale_ratio (env.attempts k).scale) SLIDER_SAFE_MARGIN)
    (hv : ∀ k, (env.attempts k).verified = false) :
    (handle_slider_captcha env N).1 = .ok false ∧
    (handle_slider_captcha env N).2.countP CtlEv.isFetch = N ∧
    (handle_slider_captcha env N).2.countP CtlEv.isVerify = N ∧
    (∀ a b s, CtlEv.recognize a b s ∈ (handle_slider_captcha env N).2 →
      b = bg a ∧ s = sl a) ∧
    (∀ a, 1 ≤ a → a ≤ N →
      CtlEv.recognize a (bg a) (sl a) ∈ (handle_slider_captcha env N).2) := by
  have h := attemptLoop_all_fail env bg sl t himg hm hh hp htr hv N 1
  simp only [handle_slider_captcha, hpop, if_true]
  exact ⟨h.1, h.2.1, h.2.2.1, h.2.2.2.1,
    fun a h1 h2 => h.2.2.2.2 a h1 (by omega)⟩

/-- Environment for the C5 witness: distinct image tokens per attempt, a
matcher that always reports 100, no scaling, all drags succeed, verification
always fails. -/
def alwaysFailVerifyEnv : CtlEnv :=
  ⟨true, fun k => ⟨some ((k : ℤ), (k : ℤ) + 1), .ok 100, .raises,
    ⟨true, fun _ => false⟩, false⟩⟩

/-- Witness for C5 at `N = 2`. -/
theorem retry_bound_witness :
    (handle_slider_captcha alwaysFailVerifyEnv 2).1 = .ok false ∧
    (handle_slider_captcha alwaysFailVerifyEnv 2).2.countP CtlEv.isFetch = 2 ∧
    (handle_slider_captcha alwaysFailVerifyEnv 2).2.countP CtlEv.isVerify = 2 ∧
    CtlEv.recognize 1 ((1 : ℕ) : ℤ) (((1 : ℕ) : ℤ) + 1) ∈
      (handle_slider_captcha alwaysFailVerifyEnv 2).2 := by
  have h := retry_bound alwaysFailVerifyEnv 2 (fun k => (k : ℤ)) (fun k => (k : ℤ) + 1)
    (fun _ => 100) rfl (fun _ => rfl) (fun _ => rfl) (fun _ => rfl)
    (fun _ _ => rfl)
    (fun _ => by
      show (0 : ℤ) < pyInt ((((100 : ℤ) + 0 : ℤ) : ℚ) * 1) - 0
      rw [show ((((100 : ℤ) + 0 : ℤ) : ℚ) * 1) = (((100 : ℤ)) : ℚ) by norm_num]
      simp [pyInt, Int.floor_intCast])
    (fun _ => rfl)
  exact ⟨h.1, h.2.1, h.2.2.1, h.2.2.2.2 1 le_rfl (by decide)⟩

/-! Section: C2: absorption of retryable failures -/

/-- Environment whose matcher raises on every attempt (bad image buffers make
`ddddocr.slide_match` throw). -/
def raisingMatcherEnv : CtlEnv :=
  ⟨true, fun _ => ⟨some (0, 0), .error (), .raises, ⟨true, fun _ => false⟩, false⟩⟩

/-- C2 counterexample: the claim says a `RecognitionError` from a raising
matcher is absorbed inside the retry loop and `handle_slider_captcha` never
raises to its caller; but the loop body has no `try`/`except` around
`recognize_distance` (line 330), so the exception propagates out of
`handle_slider_captcha` on the very first attempt. -/
theorem controller_raises_counterexample :
    (handle_slider_captcha raisingMatcherEnv 10).1 = .error () := rfl

/-- C2 (amended): bad images (Image Source returning nothing), an empty
trajectory, out-of-bounds/surface exceptions during the drag gesture, and
false verification results are all absorbed inside the retry loop, and
exhaustion is reported as a boolean; `handle_slider_captcha` never raises
*provided* the matcher succeeds and the drag handle is found on every
attempt — a raising matcher or a missing handle propagates to the caller
(see the counterexample). -/
theorem controller_no_raise (env : CtlEnv) (N : ℕ)
    (hm : ∀ k, ∃ t, (env.attempts k).matcher = .ok t)
    (hh : ∀ k, (env.attempts k).drag.handleFound = true) :
    ∃ b, (handle_slider_captcha env N).1 = .ok b := by
  by_cases hpop : env.popupAppears
  · simp only [handle_slider_captcha, hpop, if_true]
    exact attemptLoop_isOk env hm hh N 1
  · exact ⟨false, by simp [handle_slider_captcha, hpop]⟩

/-- Environment exercising absorbed failures for the C2 witness: images are
falsy on every attempt, so every attempt logs and retries; the run exhausts
and returns `False` without raising. -/
def absorbedFailEnv : CtlEnv :=
  ⟨true, fun _ => ⟨none, .ok 5, .raises, ⟨true, fun _ => false⟩, false⟩⟩

/-- Witness for C2's amended theorem. -/
theorem controller_no_raise_witness :
    (handle_slider_captcha absorbedFailEnv 10).1.isOk = true := by
  obtain ⟨b, hb⟩ := controller_no_raise absorbedFailEnv 10 (fun _ => ⟨5, rfl⟩)
    (fun _ => rfl)
  rw [hb]
  rfl

/-! Section: C8: challenge never presented -/

/-- C8: if the challenge popup does not appear within the bounded wait, the
controller fails with the distinguished no-challenge outcome — overall
failure `False`, no surface interaction at all (empty event list: Image
Source, Recogniser and Drag Executor are never invoked), hence no attempt is
consumed and no retry happens; and this is the only way out of the entry
point that consumes no attempt: whenever the popup does appear and at least
one attempt is configured, the Image Source is called at least once. -/
theorem challenge_not_presented (env : CtlEnv) (N : ℕ) :
    (env.popupAppears = false →
      handle_slider_captcha env N = (.ok false, [])) ∧
    (env.popupAppears = true → 1 ≤ N →
      1 ≤ (handle_slider_captcha env N).2.countP CtlEv.isFetch) := by
  constructor
  · intro h
    simp [handle_slider_captcha, h]
  · intro h hN
    simp only [handle_slider_captcha, h, if_true]
    obtain ⟨rest, hrest⟩ := attemptLoop_head_fetch env N 1 (by omega)
    rw [hrest]
    simp [List.countP_cons, CtlEv.isFetch]

/-- Environment where the popup never appears. -/
def noPopupEnv : CtlEnv :=
  ⟨false, fun _ => ⟨some (0, 0), .ok 50, .raises, ⟨true, fun _ => false⟩, false⟩⟩

/-- Witness for C8: with no popup the call returns `(False, [])`; with a
popup and one configured attempt, an image fetch is consumed. -/
theorem challenge_not_presented_witness :
    handle_slider_captcha noPopupEnv 10 = (.ok false, []) ∧
    1 ≤ (handle_slider_captcha alwaysFailVerifyEnv 10).2.countP CtlEv.isFetch :=
  ⟨(challenge_not_presented noPopupEnv 10).1 rfl,
   (challenge_not_presented alwaysFailVerifyEnv 10).2 rfl (by decide)⟩

/-! Section: C7: degenerate target distance -/

/-- C7: a non-positive final target distance makes `generate_track` return
the empty list (in particular at 0), and the controller treats the empty
trajectory as a retryable failure: the attempt issues no drag call at all and
the next attempt re-acquires fresh images from the Image Source.  (The
logging on that path, line 355 of the source, is an I/O effect outside the
embedding.) -/
theorem degenerate_target (d : ℤ) (hd : d ≤ 0) (env : CtlEnv) (N : ℕ)
    (bg sl t : ℤ)
    (hpop : env.popupAppears = true) (hN : 2 ≤ N)
    (h1 : (env.attempts 1).images = some (bg, sl))
    (hm1 : (env.attempts 1).matcher = .ok t)
    (hneg : correct (t + SLIDER_DISTANCE_OFFSET)
        (calculate_scale_ratio (env.attempts 1).scale) SLIDER_SAFE_MARGIN ≤ 0) :
    generate_track d = [] ∧ generate_track 0 = [] ∧
    (∀ tr, CtlEv.dragCall 1 tr ∉ (handle_slider_captcha env N).2) ∧
    CtlEv.fetchImages 2 (env.attempts 2).images ∈ (handle_slider_captcha env N).2 := by
  obtain ⟨n, rfl⟩ : ∃ m, N = m + 2 := ⟨N - 2, by omega⟩
  have htr : generate_track (correct (t + SLIDER_DISTANCE_OFFSET)
      (calculate_scale_ratio (env.attempts 1).scale) SLIDER_SAFE_MARGIN) = [] :=
    generate_track_nonpos _ hneg
  have hunf : (handle_slider_captcha env (n + 2)).2 =
      CtlEv.fetchImages 1 (env.attempts 1).images ::
        CtlEv.recognize 1 bg sl :: CtlEv.scaleQuery 1 ::
          (attemptLoop env (n + 1) 2).2 := by
    simp only [handle_slider_captcha, hpop, if_true, attemptLoop, h1, hm1,
      recognize_distance, if_pos htr]
  refine ⟨generate_track_nonpos d hd, generate_track_nonpos 0 le_rfl, ?_, ?_⟩
  · intro tr hmem
    rw [hunf] at hmem
    simp only [List.mem_cons] at hmem
    rcases hmem with h | h | h | h
    · exact absurd h (by simp)
    · exact absurd h (by simp)
    · exact absurd h (by simp)
    · have := attemptLoop_attempt_ge env (n + 1) 2 _ h
      simp [CtlEv.attempt] at this
  · rw [hunf]
    obtain ⟨rest, hrest⟩ := attemptLoop_head_fetch env (n + 1) 2 (by omega)
    rw [hrest]
    simp

/-- Environment for the C7 witness: the matcher reports distance 0, so the
corrected target is 0 and the trajectory is empty. -/
def zeroDistanceEnv : CtlEnv :=
  ⟨true, fun _ => ⟨some (7, 8), .ok 0, .raises, ⟨true, fun _ => false⟩, false⟩⟩

/-- Witness for C7 at `d = -3`, `N = 2`. -/
theorem degenerate_target_witness :
    generate_track (-3) = [] ∧ generate_track 0 = [] ∧
    CtlEv.dragCall 1 [] ∉ (handle_slider_captcha zeroDistanceEnv 2).2 ∧
    CtlEv.fetchImages 2 (zeroDistanceEnv.attempts 2).images ∈
      (handle_slider_captcha zeroDistanceEnv 2).2 := by
  have h := degenerate_target (-3) (by decide) zeroDistanceEnv 2 7 8 0 rfl (by decide)
    rfl rfl
    (by
      show pyInt ((((0 : ℤ) + 0 : ℤ) : ℚ) * 1) - 0 ≤ 0
      rw [show ((((0 : ℤ) + 0 : ℤ) : ℚ) * 1) = (((0 : ℤ)) : ℚ) by norm_num]
      simp [pyInt, Int.floor_intCast])
  exact ⟨h.1, h.2.1, h.2.2.1 [], h.2.2.2⟩


/-! Section: Simulation-loop infrastructure for C1 and C10

The run of the `while` loop inside `generate_track` is characterised in
closed form: an acceleration phase of `K` steps (positions `j²/4`, velocities
`5j`), followed by a deceleration phase in which the velocity counts down by
5 per step, ending either exactly at the target or with a clamped final
step.  `K` is the least `j` with `2d ≤ j²`. -/

lemma simLoop_cont (d : ℚ) (n : ℕ) (s : SimState) (h : s.current < d) :
    simLoop d (n + 1) s = simLoop d n (simStep d s) := by
  simp [simLoop, h]

lemma simLoop_stop (d : ℚ) (n : ℕ) (s : SimState) (h : ¬ s.current < d) :
    simLoop d n s = s := by
  cases n with
  | zero => rfl
  | succ n => simp [simLoop, h]

lemma simLoop_add (d : ℚ) (n m : ℕ) (s : SimState) :
    simLoop d (n + m) s = simLoop d m (simLoop d n s) := by
  induction n generalizing s with
  | zero =>
    rw [Nat.zero_add]
    rfl
  | succ n ih =>
    by_cases h : s.current < d
    · rw [show n + 1 + m = (n + m) + 1 by omega, simLoop_cont d (n + m) s h,
        ih (simStep d s), simLoop_cont d n s h]
    · rw [simLoop_stop d (n + 1 + m) s h, simLoop_stop d (n + 1) s h,
        simLoop_stop d m s h]

lemma simStep_accel (d c w : ℚ) (raw : List ℚ) (hc : c < d / 2) (hw : 0 ≤ w)
    (hnc : c + (w / 10 + 1 / 4) ≤ d) :
    simStep d ⟨c, w, raw⟩ =
      ⟨c + (w / 10 + 1 / 4), w + 5,
        if 1 / 2 ≤ w / 10 + 1 / 4 then raw ++ [w / 10 + 1 / 4] else raw⟩ := by
  have hmv : w * (1 / 10) + 1 / 2 * 50 * (1 / 10) * (1 / 10) = w / 10 + 1 / 4 := by
    ring
  have h' : ¬ d < c + (w / 10 + 1 / 4) := by linarith
  simp only [simStep, if_pos hc, hmv, if_neg h', SimState.mk.injEq]
  refine ⟨trivial, ?_, trivial⟩
  rw [show w + 50 * (1 / 10) = w + 5 by ring]
  exact max_eq_right (by linarith)

lemma simStep_decel (d c w : ℚ) (raw : List ℚ) (hc : ¬ c < d / 2) (hw : 5 ≤ w)
    (hnc : c + (w / 10 - 1 / 4) ≤ d) :
    simStep d ⟨c, w, raw⟩ =
      ⟨c + (w / 10 - 1 / 4), w - 5,
        if 1 / 2 ≤ w / 10 - 1 / 4 then raw ++ [w / 10 - 1 / 4] else raw⟩ := by
  have hmv : w * (1 / 10) + 1 / 2 * -50 * (1 / 10) * (1 / 10) = w / 10 - 1 / 4 := by
    ring
  have h' : ¬ d < c + (w / 10 - 1 / 4) := by linarith
  simp only [simStep, if_neg hc, hmv, if_neg h', SimState.mk.injEq]
  refine ⟨trivial, ?_, trivial⟩
  rw [show w + -50 * (1 / 10) = w - 5 by ring]
  exact max_eq_right (by linarith)

lemma simStep_clamp (d c w : ℚ) (raw : List ℚ) (hc : ¬ c < d / 2)
    (hover : d < c + (w / 10 - 1 / 4)) :
    simStep d ⟨c, w, raw⟩ =
      ⟨d, max 0 (w - 5), if 1 / 2 ≤ d - c then raw ++ [d - c] else raw⟩ := by
  have hmv : w * (1 / 10) + 1 / 2 * -50 * (1 / 10) * (1 / 10) = w / 10 - 1 / 4 := by
    ring
  simp only [simStep, if_neg hc, hmv, if_pos hover, SimState.mk.injEq]
  refine ⟨by ring, ?_, trivial⟩
  rw [show w + -50 * (1 / 10) = w - 5 by ring]


/-- Auxiliary bound `2·s ≤ s² + 1`, used to bound `Kd` by `d`. -/
lemma two_mul_le_sq_add_one (s : ℕ) : 2 * s ≤ s ^ 2 + 1 := by
  cases s with
  | zero => norm_num
  | succ s =>
    have e : (s + 1) ^ 2 = s ^ 2 + 2 * s + 1 := by ring
    omega

/-- Least `j` with `2d ≤ j²`: the number of acceleration steps the loop of
`generate_track` takes before the mid-point `d/2` is reached. -/
def Kd (d : ℕ) : ℕ :=
  if Nat.sqrt (2 * d) ^ 2 = 2 * d then Nat.sqrt (2 * d) else Nat.sqrt (2 * d) + 1

lemma Kd_sq_ge (d : ℕ) : 2 * d ≤ Kd d ^ 2 := by
  have h1 := Nat.sqrt_le' (2 * d)
  have h2 := Nat.lt_succ_sqrt' (2 * d)
  simp only [Nat.succ_eq_add_one] at h2
  unfold Kd
  split
  · omega
  · omega

lemma Kd_pred_sq_lt (d : ℕ) (hd : 1 ≤ d) : (Kd d - 1) ^ 2 < 2 * d := by
  have h1 := Nat.sqrt_le' (2 * d)
  unfold Kd
  split
  · next h =>
    rcases Nat.eq_zero_or_pos (Nat.sqrt (2 * d)) with hz | hpos
    · rw [hz] at h
      norm_num at h
      omega
    · have hlt := Nat.pow_lt_pow_left
        (show Nat.sqrt (2 * d) - 1 < Nat.sqrt (2 * d) by omega) (two_ne_zero)
      omega
  · next h =>
    simp only [Nat.add_sub_cancel]
    omega

lemma Kd_two_le (d : ℕ) (hd : 1 ≤ d) : 2 ≤ Kd d := by
  have h2 := Nat.lt_succ_sqrt' (2 * d)
  simp only [Nat.succ_eq_add_one] at h2
  unfold Kd
  split
  · next h =>
    rcases hs : Nat.sqrt (2 * d) with - | s
    · rw [hs] at h
      norm_num at h
      omega
    · rcases Nat.eq_zero_or_pos s with rfl | hpos
      · rw [hs] at h
        norm_num at h
        omega
      · omega
  · next h =>
    rcases hs : Nat.sqrt (2 * d) with - | s
    · rw [hs] at h2
      norm_num at h2
      omega
    · omega

lemma Kd_sq_le (d : ℕ) : Kd d ^ 2 ≤ 4 * d := by
  have h1 := Nat.sqrt_le' (2 * d)
  have hs := two_mul_le_sq_add_one (Nat.sqrt (2 * d))
  have e : (Nat.sqrt (2 * d) + 1) ^ 2 = Nat.sqrt (2 * d) ^ 2 + 2 * Nat.sqrt (2 * d) + 1 := by
    ring
  unfold Kd
  split
  · omega
  · omega

lemma Kd_le (d : ℕ) : Kd d ≤ d + 1 := by
  have h1 := Nat.sqrt_le' (2 * d)
  have hs := two_mul_le_sq_add_one (Nat.sqrt (2 * d))
  unfold Kd
  split
  · omega
  · omega

/-- The raw displacements collected during the first `m` recorded
acceleration steps: step `j ≥ 1` records `(2j+1)/4`, re-indexed here as
`i = j - 1`. -/
def accRaw (m : ℕ) : List ℚ :=
  (List.range m).map fun i => (2 * (i : ℚ) + 3) / 4

/-- The raw displacements of the first `m` deceleration steps starting from
velocity `5K`: step `l` records `(2(K-l)-1)/4`. -/
def decRaw (K m : ℕ) : List ℚ :=
  (List.range m).map fun l => (2 * ((K : ℚ) - l) - 1) / 4

lemma accRaw_succ (m : ℕ) :
    accRaw (m + 1) = accRaw m ++ [(2 * (m : ℚ) + 3) / 4] := by
  simp [accRaw, List.range_succ]

lemma decRaw_succ (K m : ℕ) :
    decRaw K (m + 1) = decRaw K m ++ [(2 * ((K : ℚ) - m) - 1) / 4] := by
  simp [decRaw, List.range_succ]

lemma accel_phase (d : ℕ) (hd : 1 ≤ d) :
    ∀ j, j ≤ Kd d → ∀ fuel, j ≤ fuel →
      simLoop (d : ℚ) fuel ⟨0, 0, []⟩ =
        simLoop (d : ℚ) (fuel - j) ⟨(j : ℚ) ^ 2 / 4, 5 * j, accRaw (j - 1)⟩ := by
  intro j
  induction j with
  | zero =>
    intro _ fuel _
    rw [Nat.sub_zero]
    norm_num [accRaw]
  | succ j ih =>
    intro hj fuel hf
    have hjK : j + 1 ≤ Kd d := hj
    have hsq_lt : j ^ 2 < 2 * d := by
      have hmono : j ^ 2 ≤ (Kd d - 1) ^ 2 :=
        Nat.pow_le_pow_left (by omega) 2
      have := Kd_pred_sq_lt d hd
      omega
    have hsq1_le : (j + 1) ^ 2 ≤ 4 * d := by
      have hmono : (j + 1) ^ 2 ≤ Kd d ^ 2 := Nat.pow_le_pow_left hjK 2
      have := Kd_sq_le d
      omega
    have hqlt : ((j : ℚ) ^ 2) < 2 * d := by exact_mod_cast hsq_lt
    have hq1le : ((j : ℚ) + 1) ^ 2 ≤ 4 * d := by exact_mod_cast hsq1_le
    have hdq : (1 : ℚ) ≤ d := by exact_mod_cast hd
    have hguard : ((j : ℚ) ^ 2 / 4) < (d : ℚ) := by linarith
    have hc : ((j : ℚ) ^ 2 / 4) < (d : ℚ) / 2 := by linarith
    have hnc : (j : ℚ) ^ 2 / 4 + (5 * (j : ℚ) / 10 + 1 / 4) ≤ d := by
      have e : (j : ℚ) ^ 2 / 4 + (5 * (j : ℚ) / 10 + 1 / 4) = ((j : ℚ) + 1) ^ 2 / 4 := by
        ring
      linarith [hq1le, e]
    have hstate : simStep (d : ℚ) ⟨(j : ℚ) ^ 2 / 4, 5 * j, accRaw (j - 1)⟩ =
        ⟨((j : ℕ) + 1 : ℕ) ^ 2 / 4, 5 * ((j : ℕ) + 1 : ℕ), accRaw ((j + 1) - 1)⟩ := by
      rw [simStep_accel (d : ℚ) ((j : ℚ) ^ 2 / 4) (5 * j) (accRaw (j - 1)) hc
        (by positivity) hnc]
      simp only [SimState.mk.injEq]
      refine ⟨by push_cast; ring, by push_cast; ring, ?_⟩
      cases j with
      | zero => norm_num [accRaw]
      | succ j' =>
        rw [if_pos (by push_cast; linarith [Nat.cast_nonneg (α := ℚ) j'] :
          (1 : ℚ) / 2 ≤ 5 * ((j' + 1 : ℕ) : ℚ) / 10 + 1 / 4)]
        rw [show (j' + 1 : ℕ) - 1 = j' from rfl, show (j' + 1 + 1 : ℕ) - 1 = j' + 1 from rfl,
          accRaw_succ j']
        congr 2
        push_cast
        ring
    rw [ih (by omega) fuel (by omega),
      show fuel - j = (fuel - (j + 1)) + 1 from by omega,
      simLoop_cont _ _ _ hguard, hstate]


lemma decel_phase (d : ℕ) :
    ∀ i, i + Nat.sqrt (2 * Kd d ^ 2 - 4 * d) + 1 ≤ Kd d → ∀ fuel, i ≤ fuel →
      simLoop (d : ℚ) fuel ⟨(Kd d : ℚ) ^ 2 / 4, 5 * (Kd d : ℚ), accRaw (Kd d - 1)⟩ =
        simLoop (d : ℚ) (fuel - i)
          ⟨(2 * (Kd d : ℚ) ^ 2 - ((Kd d : ℚ) - i) ^ 2) / 4, 5 * ((Kd d : ℚ) - i),
            accRaw (Kd d - 1) ++ decRaw (Kd d) i⟩ := by
  intro i
  induction i with
  | zero =>
    intro _ fuel _
    rw [Nat.sub_zero]
    congr 1
    simp only [SimState.mk.injEq]
    refine ⟨by push_cast; ring, by push_cast; ring, by simp [decRaw]⟩
  | succ i ih =>
    intro hi fuel hf
    have hKq : 2 * d ≤ Kd d ^ 2 := Kd_sq_ge d
    have h2 := Nat.lt_succ_sqrt' (2 * Kd d ^ 2 - 4 * d)
    simp only [Nat.succ_eq_add_one] at h2
    have hiK : i + 1 ≤ Kd d := by omega
    have hge2 : Nat.sqrt (2 * Kd d ^ 2 - 4 * d) + 2 ≤ Kd d - i := by omega
    have m1 : (Nat.sqrt (2 * Kd d ^ 2 - 4 * d) + 1) ^ 2 ≤ (Kd d - i - 1) ^ 2 :=
      Nat.pow_le_pow_left (by omega) 2
    have m2 : (Kd d - i) ^ 2 ≤ Kd d ^ 2 := Nat.pow_le_pow_left (by omega) 2
    have m3 : (Nat.sqrt (2 * Kd d ^ 2 - 4 * d) + 1) ^ 2 ≤ (Kd d - i) ^ 2 :=
      Nat.pow_le_pow_left (by omega) 2
    have hguardN : 2 * Kd d ^ 2 < 4 * d + (Kd d - i) ^ 2 := by omega
    have hcN : 2 * d + (Kd d - i) ^ 2 ≤ 2 * Kd d ^ 2 := by omega
    have hncN : 2 * Kd d ^ 2 ≤ 4 * d + (Kd d - i - 1) ^ 2 := by omega
    have hcast : ((Kd d - i : ℕ) : ℚ) = (Kd d : ℚ) - i := by
      push_cast [Nat.cast_sub (show i ≤ Kd d by omega)]
      ring
    have hcast1 : ((Kd d - i - 1 : ℕ) : ℚ) = (Kd d : ℚ) - i - 1 := by
      rw [Nat.cast_sub (show 1 ≤ Kd d - i by omega),
        Nat.cast_sub (show i ≤ Kd d by omega)]
      push_cast
      ring
    have hguard : (2 * (Kd d : ℚ) ^ 2 - ((Kd d : ℚ) - i) ^ 2) / 4 < (d : ℚ) := by
      have : (2 * (Kd d : ℚ) ^ 2) < 4 * d + (((Kd d - i : ℕ)) : ℚ) ^ 2 := by
        exact_mod_cast hguardN
      rw [hcast] at this
      linarith
    have hc : ¬ (2 * (Kd d : ℚ) ^ 2 - ((Kd d : ℚ) - i) ^ 2) / 4 < (d : ℚ) / 2 := by
      have : 2 * (d : ℚ) + (((Kd d - i : ℕ)) : ℚ) ^ 2 ≤ 2 * (Kd d : ℚ) ^ 2 := by
        exact_mod_cast hcN
      rw [hcast] at this
      intro hcon
      linarith
    have hw : (5 : ℚ) ≤ 5 * ((Kd d : ℚ) - i) := by
      have : ((2 : ℕ) : ℚ) ≤ (((Kd d - i : ℕ)) : ℚ) := by
        exact_mod_cast (show 2 ≤ Kd d - i by omega)
      rw [hcast] at this
      push_cast at this
      linarith
    have hnc : (2 * (Kd d : ℚ) ^ 2 - ((Kd d : ℚ) - i) ^ 2) / 4 +
        (5 * ((Kd d : ℚ) - i) / 10 - 1 / 4) ≤ (d : ℚ) := by
      have hQ : 2 * (Kd d : ℚ) ^ 2 ≤ 4 * d + (((Kd d - i - 1 : ℕ)) : ℚ) ^ 2 := by
        exact_mod_cast hncN
      rw [hcast1] at hQ
      nlinarith [hQ]
    have happ : (1 : ℚ) / 2 ≤ 5 * ((Kd d : ℚ) - i) / 10 - 1 / 4 := by
      have : ((2 : ℕ) : ℚ) ≤ (((Kd d - i : ℕ)) : ℚ) := by
        exact_mod_cast (show 2 ≤ Kd d - i by omega)
      rw [hcast] at this
      push_cast at this
      linarith
    have helt : 5 * ((Kd d : ℚ) - i) / 10 - 1 / 4 = (2 * ((Kd d : ℚ) - i) - 1) / 4 := by
      ring
    rw [ih (by omega) fuel (by omega),
      show fuel - i = (fuel - (i + 1)) + 1 from by omega,
      simLoop_cont _ _ _ hguard]
    congr 1
    rw [simStep_decel (d : ℚ) _ _ _ hc hw hnc]
    simp only [SimState.mk.injEq]
    refine ⟨by push_cast; ring, by push_cast; ring, ?_⟩
    rw [if_pos happ, helt, decRaw_succ, List.append_assoc]


/-- The raw track collected by the loop of `generate_track` at exit, in
closed form. -/
def rawExit (d : ℕ) : List ℚ :=
  let K := Kd d
  let E := 2 * K ^ 2 - 4 * d
  let qe := Nat.sqrt E
  let u := qe + 1
  if K ^ 2 = 4 * d then accRaw (K - 1)
  else
    accRaw (K - 1) ++ decRaw K (K - u) ++
      (if E = qe ^ 2 then (if 1 ≤ qe then [(2 * ((u : ℕ) : ℚ) - 1) / 4] else [])
       else (if 2 ≤ u ^ 2 - E then [((u ^ 2 - E : ℕ) : ℚ) / 4] else []))

theorem simLoop_exit (d : ℕ) (hd : 1 ≤ d) (fuel : ℕ) (hfuel : 2 * d + 4 ≤ fuel) :
    ∃ w : ℚ, simLoop (d : ℚ) fuel ⟨0, 0, []⟩ = ⟨(d : ℚ), w, rawExit d⟩ := by
  have hK2 : 2 ≤ Kd d := Kd_two_le d hd
  have hKq : 2 * d ≤ Kd d ^ 2 := Kd_sq_ge d
  have hK4 : Kd d ^ 2 ≤ 4 * d := Kd_sq_le d
  have hKle : Kd d ≤ d + 1 := Kd_le d
  have hacc := accel_phase d hd (Kd d) le_rfl fuel (by omega)
  by_cases hX : Kd d ^ 2 = 4 * d
  · have hcur : ((Kd d : ℚ) ^ 2 / 4) = (d : ℚ) := by
      have h4 : ((Kd d : ℚ) ^ 2) = 4 * (d : ℚ) := by exact_mod_cast hX
      linarith
    refine ⟨5 * (Kd d : ℚ), ?_⟩
    rw [hacc, simLoop_stop _ _ _ (by
      show ¬ ((Kd d : ℚ) ^ 2 / 4) < (d : ℚ)
      rw [hcur]
      exact lt_irrefl _)]
    rw [show rawExit d = accRaw (Kd d - 1) by simp only [rawExit]; rw [if_pos hX]]
    simp only [SimState.mk.injEq]
    exact ⟨hcur, by trivial, by trivial⟩
  · obtain ⟨E, hE⟩ : ∃ E, 2 * Kd d ^ 2 - 4 * d = E := ⟨_, rfl⟩
    obtain ⟨qe, hqe⟩ : ∃ q, Nat.sqrt E = q := ⟨_, rfl⟩
    have hsq1 : qe ^ 2 ≤ E := by rw [← hqe]; exact Nat.sqrt_le' E
    have hsq2 : E < (qe + 1) ^ 2 := by
      have h := Nat.lt_succ_sqrt' E
      rw [hqe] at h
      simpa [Nat.succ_eq_add_one] using h
    have hEK : E < Kd d ^ 2 := by omega
    have huK : qe + 1 ≤ Kd d := by
      by_contra hcon
      have hmono : Kd d ^ 2 ≤ qe ^ 2 := Nat.pow_le_pow_left (by omega) 2
      omega
    have hE4 : E + 4 * d = 2 * Kd d ^ 2 := by omega
    have hEQ : ((E : ℕ) : ℚ) + 4 * (d : ℚ) = 2 * (Kd d : ℚ) ^ 2 := by
      exact_mod_cast hE4
    have hraw : rawExit d =
        accRaw (Kd d - 1) ++ decRaw (Kd d) (Kd d - (qe + 1)) ++
          (if E = qe ^ 2 then
            (if 1 ≤ qe then [(2 * ((qe + 1 : ℕ) : ℚ) - 1) / 4] else [])
           else
            (if 2 ≤ (qe + 1) ^ 2 - E then [(((qe + 1) ^ 2 - E : ℕ) : ℚ) / 4] else [])) := by
      simp only [rawExit]
      rw [if_neg hX, hE, hqe]
    have hdec := decel_phase d (Kd d - (qe + 1))
      (by rw [hE, hqe]; omega) (fuel - Kd d) (by omega)
    have hcastu : ((Kd d : ℚ) - ((Kd d - (qe + 1) : ℕ) : ℚ)) = ((qe : ℚ) + 1) := by
      rw [Nat.cast_sub huK]
      push_cast
      ring
    rw [hcastu] at hdec
    have humono : (qe + 1) ^ 2 ≤ Kd d ^ 2 := Nat.pow_le_pow_left huK 2
    have hguardN : 2 * Kd d ^ 2 < 4 * d + (qe + 1) ^ 2 := by omega
    have hguardQ : (2 * (Kd d : ℚ) ^ 2 - ((qe : ℚ) + 1) ^ 2) / 4 < (d : ℚ) := by
      have hc : (2 * (Kd d : ℚ) ^ 2) < 4 * (d : ℚ) + ((qe : ℚ) + 1) ^ 2 := by
        exact_mod_cast hguardN
      linarith
    have hcN : 2 * d + (qe + 1) ^ 2 ≤ 2 * Kd d ^ 2 := by omega
    have hcQ : ¬ (2 * (Kd d : ℚ) ^ 2 - ((qe : ℚ) + 1) ^ 2) / 4 < (d : ℚ) / 2 := by
      have hc : 2 * (d : ℚ) + ((qe : ℚ) + 1) ^ 2 ≤ 2 * (Kd d : ℚ) ^ 2 := by
        exact_mod_cast hcN
      intro hcon
      linarith
    have hwQ : (5 : ℚ) ≤ 5 * ((qe : ℚ) + 1) := by
      have := Nat.cast_nonneg (α := ℚ) qe
      linarith
    have hF2 : fuel - Kd d - (Kd d - (qe + 1)) = (fuel - Kd d - (Kd d - (qe + 1)) - 1) + 1 := by
      omega
    rw [hacc, hdec, hF2, simLoop_cont _ _ _ hguardQ]
    by_cases hY : E = qe ^ 2
    · -- exact arrival: one ordinary deceleration step lands on d
      have hceq : (2 * (Kd d : ℚ) ^ 2 - ((qe : ℚ) + 1) ^ 2) / 4 +
          (5 * ((qe : ℚ) + 1) / 10 - 1 / 4) = (d : ℚ) := by
        have hyq : ((qe : ℚ)) ^ 2 + 4 * (d : ℚ) = 2 * (Kd d : ℚ) ^ 2 := by
          have hN : qe ^ 2 + 4 * d = 2 * Kd d ^ 2 := by omega
          exact_mod_cast hN
        have e : ((qe : ℚ) + 1) ^ 2 = (qe : ℚ) ^ 2 + 2 * (qe : ℚ) + 1 := by ring
        linarith [hyq, e]
      rw [simStep_decel _ _ _ _ hcQ hwQ hceq.le]
      rw [simLoop_stop _ _ _ (by
        show ¬ ((2 * (Kd d : ℚ) ^ 2 - ((qe : ℚ) + 1) ^ 2) / 4 +
          (5 * ((qe : ℚ) + 1) / 10 - 1 / 4)) < (d : ℚ)
        rw [hceq]
        exact lt_irrefl _)]
      rw [hraw, if_pos hY]
      refine ⟨5 * ((qe : ℚ) + 1) - 5, ?_⟩
      simp only [SimState.mk.injEq]
      refine ⟨hceq, by trivial, ?_⟩
      rcases Nat.eq_zero_or_pos qe with rfl | hqe1
      · rw [if_neg (by norm_num), if_neg (by omega)]
        simp
      · rw [if_pos (by
          have h1 : (1 : ℚ) ≤ (qe : ℚ) := by exact_mod_cast hqe1
          linarith), if_pos (show 1 ≤ qe by omega)]
        congr 2
        push_cast
        ring
    · -- clamped final step
      have hstrict : qe ^ 2 < E := by omega
      have hoverN : 4 * d + qe ^ 2 < 2 * Kd d ^ 2 := by omega
      have hoverQ : (d : ℚ) < (2 * (Kd d : ℚ) ^ 2 - ((qe : ℚ) + 1) ^ 2) / 4 +
          (5 * ((qe : ℚ) + 1) / 10 - 1 / 4) := by
        have hc : 4 * (d : ℚ) + ((qe : ℚ)) ^ 2 < 2 * (Kd d : ℚ) ^ 2 := by
          exact_mod_cast hoverN
        have e : ((qe : ℚ) + 1) ^ 2 = (qe : ℚ) ^ 2 + 2 * (qe : ℚ) + 1 := by ring
        linarith [hc, e]
      rw [simStep_clamp _ _ _ _ hcQ hoverQ]
      rw [simLoop_stop _ _ _ (by
        show ¬ (d : ℚ) < (d : ℚ)
        exact lt_irrefl _)]
      have hfinc : (((qe + 1) ^ 2 - E : ℕ) : ℚ) = ((qe : ℚ) + 1) ^ 2 - ((E : ℕ) : ℚ) := by
        rw [Nat.cast_sub hsq2.le]
        push_cast
        ring
      have hdc : (d : ℚ) - (2 * (Kd d : ℚ) ^ 2 - ((qe : ℚ) + 1) ^ 2) / 4 =
          (((qe + 1) ^ 2 - E : ℕ) : ℚ) / 4 := by
        rw [hfinc]
        linarith [hEQ]
      rw [hraw, if_neg hY]
      refine ⟨max 0 (5 * ((qe : ℚ) + 1) - 5), ?_⟩
      simp only [SimState.mk.injEq]
      refine ⟨by trivial, by trivial, ?_⟩
      by_cases hfin : 2 ≤ (qe + 1) ^ 2 - E
      · rw [if_pos (by
          rw [hdc]
          have : ((2 : ℕ) : ℚ) ≤ (((qe + 1) ^ 2 - E : ℕ) : ℚ) := by exact_mod_cast hfin
          push_cast at this
          linarith), if_pos hfin, hdc, List.append_assoc]
      · rw [if_neg (by
          rw [hdc]
          have : (((qe + 1) ^ 2 - E : ℕ) : ℚ) ≤ ((1 : ℕ) : ℚ) := by
            exact_mod_cast (show (qe + 1) ^ 2 - E ≤ 1 by omega)
          push_cast at this
          intro hcon
          linarith), if_neg hfin]
        simp


/-! Section: Integer sums of the rounded track -/

lemma pyRound_acc_val (i : ℕ) :
    max 1 (pyRound ((2 * (i : ℚ) + 3) / 4)) = (((i + 2) / 2 : ℕ) : ℤ) := by
  obtain ⟨t, rfl | rfl⟩ := Nat.even_or_odd' i
  · have e : (2 * ((2 * t : ℕ) : ℚ) + 3) / 4 = ((t : ℤ) : ℚ) + 3 / 4 := by
      push_cast
      ring
    rw [e, pyRound_int_add (t : ℤ) (3 / 4) (by norm_num) (by norm_num),
      if_neg (by norm_num : ¬ (3 / 4 : ℚ) < 1 / 2),
      if_pos (by norm_num : (1 / 2 : ℚ) < 3 / 4),
      show (2 * t + 2) / 2 = t + 1 from by omega,
      max_eq_right (show (1 : ℤ) ≤ (t : ℤ) + 1 from by omega)]
    omega
  · have e : (2 * ((2 * t + 1 : ℕ) : ℚ) + 3) / 4 = (((t : ℤ) + 1 : ℤ) : ℚ) + 1 / 4 := by
      push_cast
      ring
    rw [e, pyRound_int_add ((t : ℤ) + 1) (1 / 4) (by norm_num) (by norm_num),
      if_pos (by norm_num : (1 / 4 : ℚ) < 1 / 2),
      show (2 * t + 1 + 2) / 2 = t + 1 from by omega,
      max_eq_right (show (1 : ℤ) ≤ (t : ℤ) + 1 from by omega)]
    omega

lemma pyRound_dec_val (q : ℕ) (hq : 2 ≤ q) :
    max 1 (pyRound ((2 * (q : ℚ) - 1) / 4)) = ((q / 2 : ℕ) : ℤ) := by
  obtain ⟨t, rfl | rfl⟩ := Nat.even_or_odd' q
  · have ht : 1 ≤ t := by omega
    have e : (2 * ((2 * t : ℕ) : ℚ) - 1) / 4 = (((t : ℤ) - 1 : ℤ) : ℚ) + 3 / 4 := by
      push_cast
      ring
    rw [e, pyRound_int_add ((t : ℤ) - 1) (3 / 4) (by norm_num) (by norm_num),
      if_neg (by norm_num : ¬ (3 / 4 : ℚ) < 1 / 2),
      if_pos (by norm_num : (1 / 2 : ℚ) < 3 / 4),
      show (2 * t) / 2 = t from by omega,
      max_eq_right (show (1 : ℤ) ≤ (t : ℤ) - 1 + 1 from by omega)]
    omega
  · have ht : 1 ≤ t := by omega
    have e : (2 * ((2 * t + 1 : ℕ) : ℚ) - 1) / 4 = ((t : ℤ) : ℚ) + 1 / 4 := by
      push_cast
      ring
    rw [e, pyRound_int_add (t : ℤ) (1 / 4) (by norm_num) (by norm_num),
      if_pos (by norm_num : (1 / 4 : ℚ) < 1 / 2),
      show (2 * t + 1) / 2 = t from by omega,
      max_eq_right (show (1 : ℤ) ≤ (t : ℤ) from by omega)]

lemma pyRound_quarter_le (n : ℕ) (h2 : 2 ≤ n) :
    max 1 (pyRound ((n : ℚ) / 4)) ≤ (((n + 2) / 4 : ℕ) : ℤ) := by
  obtain ⟨t, r, hr, rfl⟩ : ∃ t r, r < 4 ∧ n = 4 * t + r :=
    ⟨n / 4, n % 4, Nat.mod_lt _ (by norm_num), (Nat.div_add_mod n 4).symm⟩
  interval_cases r
  · have ht : 1 ≤ t := by omega
    have e : ((4 * t + 0 : ℕ) : ℚ) / 4 = ((t : ℤ) : ℚ) + 0 := by
      push_cast
      ring
    rw [e, pyRound_int_add (t : ℤ) 0 le_rfl (by norm_num),
      if_pos (by norm_num : (0 : ℚ) < 1 / 2),
      show (4 * t + 0 + 2) / 4 = t from by omega,
      max_eq_right (show (1 : ℤ) ≤ (t : ℤ) from by omega)]
  · have ht : 1 ≤ t := by omega
    have e : ((4 * t + 1 : ℕ) : ℚ) / 4 = ((t : ℤ) : ℚ) + 1 / 4 := by
      push_cast
      ring
    rw [e, pyRound_int_add (t : ℤ) (1 / 4) (by norm_num) (by norm_num),
      if_pos (by norm_num : (1 / 4 : ℚ) < 1 / 2),
      show (4 * t + 1 + 2) / 4 = t from by omega,
      max_eq_right (show (1 : ℤ) ≤ (t : ℤ) from by omega)]
  · have e : ((4 * t + 2 : ℕ) : ℚ) / 4 = ((t : ℤ) : ℚ) + 1 / 2 := by
      push_cast
      ring
    rw [e, pyRound_int_add (t : ℤ) (1 / 2) (by norm_num) (by norm_num),
      if_neg (by norm_num : ¬ (1 / 2 : ℚ) < 1 / 2),
      if_neg (by norm_num : ¬ (1 / 2 : ℚ) < 1 / 2),
      show (4 * t + 2 + 2) / 4 = t + 1 from by omega]
    split
    · exact max_le (by omega) (by omega)
    · exact max_le (by omega) (by omega)
  · have e : ((4 * t + 3 : ℕ) : ℚ) / 4 = ((t : ℤ) : ℚ) + 3 / 4 := by
      push_cast
      ring
    rw [e, pyRound_int_add (t : ℤ) (3 / 4) (by norm_num) (by norm_num),
      if_neg (by norm_num : ¬ (3 / 4 : ℚ) < 1 / 2),
      if_pos (by norm_num : (1 / 2 : ℚ) < 3 / 4),
      show (4 * t + 3 + 2) / 4 = t + 1 from by omega]
    exact max_le (by omega) (by omega)

lemma sq_div_four_succ (r : ℕ) : ((r + 1) ^ 2) / 4 = (r ^ 2) / 4 + (r + 1) / 2 := by
  obtain ⟨t, rfl | rfl⟩ := Nat.even_or_odd' r
  · have e1 : (2 * t + 1) ^ 2 = 4 * (t * t) + 4 * t + 1 := by ring
    have e2 : (2 * t) ^ 2 = 4 * (t * t) := by ring
    omega
  · have e1 : (2 * t + 1 + 1) ^ 2 = 4 * (t * t) + 8 * t + 4 := by ring
    have e2 : (2 * t + 1) ^ 2 = 4 * (t * t) + 4 * t + 1 := by ring
    omega

lemma accTrack_sum (m : ℕ) :
    ((accRaw m).map (fun s => max 1 (pyRound s))).sum = ((((m + 1) ^ 2) / 4 : ℕ) : ℤ) := by
  induction m with
  | zero => norm_num [accRaw]
  | succ m ih =>
    rw [accRaw_succ, List.map_append, List.sum_append, ih]
    simp only [List.map_cons, List.map_nil, List.sum_cons, List.sum_nil, add_zero]
    rw [pyRound_acc_val m]
    have h := sq_div_four_succ (m + 1)
    omega

lemma decTrack_sum (K : ℕ) : ∀ m, m + 1 ≤ K →
    ((decRaw K m).map (fun s => max 1 (pyRound s))).sum +
      ((((K - m) ^ 2) / 4 : ℕ) : ℤ) = (((K ^ 2) / 4 : ℕ) : ℤ) := by
  intro m
  induction m with
  | zero => simp [decRaw]
  | succ m ih =>
    intro hm
    rw [decRaw_succ, List.map_append, List.sum_append]
    simp only [List.map_cons, List.map_nil, List.sum_cons, List.sum_nil, add_zero]
    have hq2 : 2 ≤ K - m := by omega
    have hcast : ((K : ℚ) - (m : ℚ)) = ((K - m : ℕ) : ℚ) := by
      rw [Nat.cast_sub (by omega)]
    rw [hcast, pyRound_dec_val (K - m) hq2]
    have hih := ih (by omega)
    have h := sq_div_four_succ (K - m - 1)
    have hr : K - m - 1 + 1 = K - m := by omega
    rw [hr] at h
    have e : K - (m + 1) = K - m - 1 := by omega
    rw [e]
    omega


lemma rawExit_ne_nil (d : ℕ) (hd : 1 ≤ d) : rawExit d ≠ [] := by
  have hK2 := Kd_two_le d hd
  have hacc_ne : accRaw (Kd d - 1) ≠ [] := by
    obtain ⟨m, hm⟩ : ∃ m, Kd d - 1 = m + 1 := ⟨Kd d - 2, by omega⟩
    rw [hm, accRaw_succ]
    simp
  simp only [rawExit]
  split
  · exact hacc_ne
  · simp only [ne_eq, List.append_eq_nil]
    intro h
    exact hacc_ne h.1.1

lemma rawExit_sum (d : ℕ) (hd : 1 ≤ d) :
    ((rawExit d).map (fun s => max 1 (pyRound s))).sum ≤ (d : ℤ) := by
  have hK2 := Kd_two_le d hd
  have hKq := Kd_sq_ge d
  have hK4 := Kd_sq_le d
  have hKacc := accTrack_sum (Kd d - 1)
  rw [show Kd d - 1 + 1 = Kd d from by omega] at hKacc
  simp only [rawExit]
  split
  · next hX =>
    rw [hKacc]
    omega
  · next hX =>
    obtain ⟨E, hE⟩ : ∃ E, 2 * Kd d ^ 2 - 4 * d = E := ⟨_, rfl⟩
    rw [hE]
    obtain ⟨qe, hqe⟩ : ∃ q, Nat.sqrt E = q := ⟨_, rfl⟩
    rw [hqe]
    have hsq1 : qe ^ 2 ≤ E := by rw [← hqe]; exact Nat.sqrt_le' E
    have hsq2 : E < (qe + 1) ^ 2 := by
      have h := Nat.lt_succ_sqrt' E
      rw [hqe] at h
      simpa [Nat.succ_eq_add_one] using h
    have hEK : E < Kd d ^ 2 := by omega
    have huK : qe + 1 ≤ Kd d := by
      by_contra hcon
      have hmono : Kd d ^ 2 ≤ qe ^ 2 := Nat.pow_le_pow_left (by omega) 2
      omega
    have hE4 : E + 4 * d = 2 * Kd d ^ 2 := by omega
    have hdecs := decTrack_sum (Kd d) (Kd d - (qe + 1)) (by omega)
    rw [show Kd d - (Kd d - (qe + 1)) = qe + 1 from by omega] at hdecs
    rw [List.map_append, List.map_append, List.sum_append, List.sum_append, hKacc]
    split
    · next hY =>
      have hev : Even qe := by
        have hevE : Even (qe ^ 2) := by
          rw [← hY]
          exact Nat.even_iff.2 (by omega)
        exact (Nat.even_pow.mp hevE).1
      obtain ⟨sh, hsh⟩ := hev
      have e1 : qe ^ 2 = 4 * (sh * sh) := by rw [hsh]; ring
      have e2 : (qe + 1) ^ 2 = 4 * (sh * sh) + 4 * sh + 1 := by rw [hsh]; ring
      split
      · next hq1 =>
        simp only [List.map_cons, List.map_nil, List.sum_cons, List.sum_nil, add_zero]
        rw [pyRound_dec_val (qe + 1) (by omega)]
        omega
      · next hq0 =>
        simp only [List.map_nil, List.sum_nil, add_zero]
        omega
    · next hY =>
      have hstrict : qe ^ 2 < E := by omega
      obtain ⟨t, ht | ht⟩ := Nat.even_or_odd' (qe + 1)
      · have e2 : (qe + 1) ^ 2 = 4 * (t * t) := by rw [ht]; ring
        split
        · next hfin =>
          simp only [List.map_cons, List.map_nil, List.sum_cons, List.sum_nil, add_zero]
          have hb := pyRound_quarter_le ((qe + 1) ^ 2 - E) hfin
          omega
        · next hfin =>
          simp only [List.map_nil, List.sum_nil, add_zero]
          omega
      · have e2 : (qe + 1) ^ 2 = 4 * (t * t) + 4 * t + 1 := by rw [ht]; ring
        split
        · next hfin =>
          simp only [List.map_cons, List.map_nil, List.sum_cons, List.sum_nil, add_zero]
          have hb := pyRound_quarter_le ((qe + 1) ^ 2 - E) hfin
          omega
        · next hfin =>
          simp only [List.map_nil, List.sum_nil, add_zero]
          omega


/-! Section: C1: trajectory sum invariant -/

/-- C1: for every non-negative integer target distance `d`,
`generate_track d` sums to exactly `d`.  For `d > 0` the closed-form run of
the simulation loop gives a non-empty raw track whose rounded entries sum to
at most `d`, so the final `max(1, track[-1] + delta)` correction lands the
total exactly on `d`; for `d = 0` the function returns the empty list. -/
theorem trajectory_sum_invariant (d : ℤ) (hd : 0 ≤ d) :
    (generate_track d).sum = d := by
  rcases eq_or_lt_of_le hd with rfl | hpos
  · rfl
  · lift d to ℕ using hd with n
    have hn : 1 ≤ n := by exact_mod_cast hpos
    have h0 : ¬ (n : ℤ) ≤ 0 := by omega
    simp only [generate_track, if_neg h0]
    obtain ⟨w, hw⟩ := simLoop_exit n hn (2 * n + 4) le_rfl
    rw [show (((n : ℤ) : ℚ)) = ((n : ℕ) : ℚ) from by push_cast; ring,
      show (2 * (n : ℤ).toNat + 4) = 2 * n + 4 from by omega, hw]
    rw [if_neg (by simpa using rawExit_ne_nil n hn)]
    have hmem : ∀ y ∈ (rawExit n).map (fun step => max 1 (pyRound step)), (1 : ℤ) ≤ y := by
      intro y hy
      obtain ⟨z, -, rfl⟩ := List.mem_map.1 hy
      exact le_max_left _ _
    have hsum := rawExit_sum n hn
    obtain ⟨L, x, hLx⟩ :=
      ((rawExit n).map (fun step => max 1 (pyRound step))).eq_nil_or_concat'.resolve_left
        (by
          simp only [ne_eq, List.map_eq_nil_iff]
          exact rawExit_ne_nil n hn)
    rw [hLx, setLast_concat]
    rw [hLx] at hmem hsum
    have hx1 : (1 : ℤ) ≤ x := hmem x (by simp)
    have hsums : (L ++ [x]).sum = L.sum + x := by
      rw [List.sum_append, List.sum_cons, List.sum_nil, add_zero]
    rw [hsums] at hsum
    rw [List.sum_append, hsums]
    simp only [List.sum_cons, List.sum_nil, add_zero]
    rw [max_eq_right (by omega)]
    omega

/-- Witness for C1 at `d = 140` (the spec's end-to-end scenario target). -/
theorem trajectory_sum_invariant_witness :
    (0 : ℤ) ≤ 140 ∧ (generate_track 140).sum = 140 :=
  ⟨by decide, trajectory_sum_invariant 140 (by decide)⟩

/-! Section: C10: termination of the simulation loop -/

/-- C10: for every integer input distance, the `while current <
target_distance` loop inside `generate_track` terminates: within the
modelled fuel bound `2·d + 4` the loop reaches a state falsifying its guard,
and giving the loop any more fuel does not change the result, so
`generate_track` is a total function returning a finite list.  (For
non-positive distances the guard is false at entry.) -/
theorem simulation_terminates (dist : ℤ) :
    ∃ s : SimState, ¬ s.current < (dist : ℚ) ∧
      ∀ fuel, 2 * dist.toNat + 4 ≤ fuel →
        simLoop (dist : ℚ) fuel ⟨0, 0, []⟩ = s := by
  by_cases hneg : dist ≤ 0
  · have hg : ¬ (SimState.mk 0 0 []).current < (dist : ℚ) := by
      show ¬ (0 : ℚ) < (dist : ℚ)
      intro hcon
      have : (0 : ℚ) < ((0 : ℤ) : ℚ) := lt_of_lt_of_le hcon (by exact_mod_cast hneg)
      norm_num at this
    exact ⟨⟨0, 0, []⟩, hg, fun fuel _ => simLoop_stop _ _ _ hg⟩
  · push_neg at hneg
    lift dist to ℕ using (by omega : (0 : ℤ) ≤ dist) with n
    have hn : 1 ≤ n := by exact_mod_cast hneg
    obtain ⟨w, hw⟩ := simLoop_exit n hn (2 * n + 4) le_rfl
    have hcast : (((n : ℤ) : ℚ)) = ((n : ℕ) : ℚ) := by push_cast; ring
    refine ⟨⟨(n : ℚ), w, rawExit n⟩, ?_, ?_⟩
    · show ¬ ((n : ℕ) : ℚ) < (((n : ℤ)) : ℚ)
      rw [hcast]
      exact lt_irrefl _
    · intro fuel hfuel
      rw [show (2 * (n : ℤ).toNat + 4) = 2 * n + 4 from by omega] at hfuel
      rw [hcast, show fuel = (2 * n + 4) + (fuel - (2 * n + 4)) from by omega,
        simLoop_add, hw, simLoop_stop _ _ _ (by
          show ¬ ((n : ℕ) : ℚ) < ((n : ℕ) : ℚ)
          exact lt_irrefl _)]

/-- Witness for C10 at `dist = 7`: at the modelled fuel `18 = 2·7 + 4` the
loop guard is already false, and extra fuel does not change the result. -/
theorem simulation_terminates_witness :
    ¬ (simLoop ((7 : ℤ) : ℚ) 18 ⟨0, 0, []⟩).current < ((7 : ℤ) : ℚ) ∧
    simLoop ((7 : ℤ) : ℚ) 25 ⟨0, 0, []⟩ = simLoop ((7 : ℤ) : ℚ) 18 ⟨0, 0, []⟩ := by
  obtain ⟨s, h1, h2⟩ := simulation_terminates 7
  rw [h2 18 (by decide), h2 25 (by decide)]
  exact ⟨h1, rfl⟩

end SeatSlider
